import Mathlib

/-!
Verification of the sequence-model core of the LipReading repository
(`src/models/lipreader/better_model.py`): the Masked Normalization
Primitive, the Sequence Reordering Utility, the Video Encoder and the
Attention-Based Character Decoding Step.

Code that lives in the repository file itself (output-mask construction,
`_cat_directions`, the decoding-step dataflow, `save_best_model`) is
embedded directly from the source.  Library routines the source calls but
whose code is not part of the repository (allennlp's `masked_softmax`,
`masked_log_softmax` and `sort_batch_by_length`; PyTorch's
`pack_padded_sequence` / RNN cells; `os.path` / `torch.save`) are modelled
from the specification, as indicated by their doc comments.

Tensors are modelled as nested lists of real numbers; a batch dimension is
the outer list level.  Log-probabilities are `Option ℝ`, where `none`
models the effectively negative-infinite log-probability (exactly zero
probability) that the spec assigns to masked positions; `expOpt` maps a
log-probability to the probability it denotes (`expOpt none = 0`).
-/

namespace LipReading

/-! ### Masked Normalization Primitive -/

/-- Modelled from the spec: the sum of `exp` over the unmasked positions of a
score row — the normalizing denominator of the masked softmax. -/
noncomputable def maskedExpSum (scores : List ℝ) (mask : List Bool) : ℝ :=
  (List.zipWith (fun s m => if m then Real.exp s else 0) scores mask).sum

/-- Modelled from the spec (the primitive's implementation is allennlp library
code, not part of the repository): softmax over the last axis restricted to
unmasked positions; masked positions receive exactly zero probability, and a
row with zero unmasked positions yields the all-zero distribution as the
documented fallback. -/
noncomputable def masked_softmax (scores : List ℝ) (mask : List Bool) : List ℝ :=
  List.zipWith (fun s m => if m then Real.exp s / maskedExpSum scores mask else 0) scores mask

/-- Modelled from the spec (the primitive's implementation is allennlp library
code, not part of the repository): log-softmax over the last axis restricted to
unmasked positions; a masked position receives effectively negative-infinite
log-probability, represented here as `none` (which lies at or below any finite
negative sentinel and denotes exactly zero probability). -/
noncomputable def masked_log_softmax (scores : List ℝ) (mask : List Bool) : List (Option ℝ) :=
  List.zipWith (fun s m => if m then some (s - Real.log (maskedExpSum scores mask)) else none)
    scores mask

/-- Probability denoted by a (possibly negative-infinite) log-probability. -/
noncomputable def expOpt : Option ℝ → ℝ
  | some x => Real.exp x
  | none => 0

/-- Entries of a row sitting at unmasked positions of `mask`. -/
def unmaskedEntries {α : Type} (xs : List α) (mask : List Bool) : List α :=
  ((xs.zip mask).filter (fun p => p.2)).map Prod.fst

/-! ### Helper lemmas about the primitive -/

theorem maskedExpSum_nonneg (scores : List ℝ) (mask : List Bool) :
    0 ≤ maskedExpSum scores mask := by
  unfold maskedExpSum
  induction scores generalizing mask with
  | nil => simp
  | cons s ss ih =>
    cases mask with
    | nil => simp
    | cons m ms =>
      simp only [List.zipWith_cons_cons, List.sum_cons]
      have h1 : (0:ℝ) ≤ if m then Real.exp s else 0 := by
        split
        · exact le_of_lt (Real.exp_pos s)
        · exact le_refl 0
      have h2 := ih ms
      linarith

theorem maskedExpSum_pos (scores : List ℝ) (mask : List Bool)
    (hlen : mask.length = scores.length) (i : ℕ) (hi : mask[i]? = some true) :
    0 < maskedExpSum scores mask := by
  unfold maskedExpSum
  induction scores generalizing mask i with
  | nil =>
    rw [List.length_nil, List.length_eq_zero] at hlen
    subst hlen
    simp at hi
  | cons s ss ih =>
    cases mask with
    | nil => simp at hi
    | cons m ms =>
      simp only [List.zipWith_cons_cons, List.sum_cons]
      cases i with
      | zero =>
        simp only [List.getElem?_cons_zero, Option.some.injEq] at hi
        subst hi
        simp only [if_true]
        have := maskedExpSum_nonneg ss ms
        unfold maskedExpSum at this
        have := Real.exp_pos s
        linarith
      | succ j =>
        simp only [List.getElem?_cons_succ] at hi
        have hlen' : ms.length = ss.length := by
          simpa using hlen
        have hrec := ih ms hlen' j hi
        have h1 : (0:ℝ) ≤ if m then Real.exp s else 0 := by
          split
          · exact le_of_lt (Real.exp_pos s)
          · exact le_refl 0
        linarith

theorem zipWith_getElem?_of_mask_false {α β : Type} (f : α → Bool → β) (z : β)
    (hf : ∀ s, f s false = z) (xs : List α) (ms : List Bool)
    (hlen : ms.length = xs.length) (i : ℕ) (hi : ms[i]? = some false) :
    (List.zipWith f xs ms)[i]? = some z := by
  induction xs generalizing ms i with
  | nil =>
    rw [List.length_nil, List.length_eq_zero] at hlen
    subst hlen
    simp at hi
  | cons x xs ih =>
    cases ms with
    | nil => simp at hi
    | cons m ms =>
      cases i with
      | zero =>
        simp only [List.getElem?_cons_zero, Option.some.injEq] at hi
        subst hi
        simp [hf]
      | succ j =>
        simp only [List.getElem?_cons_succ] at hi
        have hlen' : ms.length = xs.length := by simpa using hlen
        simpa using ih ms hlen' j hi

theorem zipWith_getElem?_of_both {α β γ : Type} (f : α → β → γ) (xs : List α) (ys : List β)
    (i : ℕ) (a : α) (b : β) (ha : xs[i]? = some a) (hb : ys[i]? = some b) :
    (List.zipWith f xs ys)[i]? = some (f a b) := by
  induction xs generalizing ys i with
  | nil => simp at ha
  | cons x xs ih =>
    cases ys with
    | nil => simp at hb
    | cons y ys =>
      cases i with
      | zero =>
        simp only [List.getElem?_cons_zero, Option.some.injEq] at ha hb
        subst ha; subst hb
        simp
      | succ j =>
        simp only [List.getElem?_cons_succ] at ha hb ⊢
        simpa using ih ys j ha hb

theorem unmaskedEntries_cons_true {α : Type} (x : α) (xs : List α) (ms : List Bool) :
    unmaskedEntries (x :: xs) (true :: ms) = x :: unmaskedEntries xs ms := by
  simp [unmaskedEntries]

theorem unmaskedEntries_cons_false {α : Type} (x : α) (xs : List α) (ms : List Bool) :
    unmaskedEntries (x :: xs) (false :: ms) = unmaskedEntries xs ms := by
  simp [unmaskedEntries]

theorem unmaskedEntries_zipWith_sum_div (xs : List ℝ) (ms : List Bool) (c : ℝ) :
    (unmaskedEntries (List.zipWith (fun s m => if m then Real.exp s / c else 0) xs ms) ms).sum
      = (List.zipWith (fun s m => if m then Real.exp s else 0) xs ms).sum / c := by
  induction xs generalizing ms with
  | nil => simp [unmaskedEntries]
  | cons x xs ih =>
    cases ms with
    | nil => simp [unmaskedEntries]
    | cons m ms =>
      cases m with
      | true =>
        rw [List.zipWith_cons_cons, List.zipWith_cons_cons, if_pos rfl, if_pos rfl,
          unmaskedEntries_cons_true, List.sum_cons, List.sum_cons, ih ms, add_div]
      | false =>
        rw [List.zipWith_cons_cons, List.zipWith_cons_cons, if_neg (by simp), if_neg (by simp),
          unmaskedEntries_cons_false, List.sum_cons, ih ms, zero_add]

theorem unmaskedEntries_log_sum_div (xs : List ℝ) (ms : List Bool) (c : ℝ) (hc : 0 < c) :
    ((unmaskedEntries (List.zipWith (fun s m => if m then some (s - Real.log c) else none) xs ms)
        ms).map expOpt).sum
      = (List.zipWith (fun s m => if m then Real.exp s else 0) xs ms).sum / c := by
  induction xs generalizing ms with
  | nil => simp [unmaskedEntries]
  | cons x xs ih =>
    cases ms with
    | nil => simp [unmaskedEntries]
    | cons m ms =>
      cases m with
      | true =>
        rw [List.zipWith_cons_cons, List.zipWith_cons_cons, if_pos rfl, if_pos rfl,
          unmaskedEntries_cons_true, List.map_cons, List.sum_cons, List.sum_cons, ih ms, add_div]
        congr 1
        show Real.exp (x - Real.log c) = Real.exp x / c
        rw [Real.exp_sub, Real.exp_log hc]
      | false =>
        rw [List.zipWith_cons_cons, List.zipWith_cons_cons, if_neg (by simp), if_neg (by simp),
          unmaskedEntries_cons_false, List.sum_cons, ih ms, zero_add]

/-- C1: for every score row and binary mask with at least one unmasked position,
the masked softmax assigns probability exactly 0 to every masked position and the
probabilities at unmasked positions sum to 1; the masked log-softmax satisfies
that exp of the unmasked entries sums to 1 and every masked entry is the
effectively negative-infinite value `none` (at or below any negative sentinel). -/
theorem c1_masked_normalization (scores : List ℝ) (mask : List Bool)
    (hlen : mask.length = scores.length) (i0 : ℕ) (hi0 : mask[i0]? = some true) :
    ((unmaskedEntries (masked_softmax scores mask) mask).sum = 1
      ∧ ∀ i : ℕ, mask[i]? = some false → (masked_softmax scores mask)[i]? = some 0)
    ∧ (((unmaskedEntries (masked_log_softmax scores mask) mask).map expOpt).sum = 1
      ∧ ∀ i : ℕ, mask[i]? = some false → (masked_log_softmax scores mask)[i]? = some Option.none) := by
  have hS : 0 < maskedExpSum scores mask := maskedExpSum_pos scores mask hlen i0 hi0
  refine ⟨⟨?_, ?_⟩, ?_, ?_⟩
  · unfold masked_softmax
    rw [unmaskedEntries_zipWith_sum_div]
    exact div_self (ne_of_gt hS)
  · intro i hi
    exact zipWith_getElem?_of_mask_false _ (0:ℝ) (fun s => rfl) scores mask hlen i hi
  · unfold masked_log_softmax
    rw [unmaskedEntries_log_sum_div scores mask _ hS]
    exact div_self (ne_of_gt hS)
  · intro i hi
    exact zipWith_getElem?_of_mask_false _ (Option.none (α := ℝ)) (fun s => rfl)
      scores mask hlen i hi

/-- Witness for C1 at scores = [0, 1], mask = [true, false]. -/
theorem c1_masked_normalization_witness :
    (([true, false] : List Bool).length = ([0, 1] : List ℝ).length
      ∧ ([true, false] : List Bool)[0]? = some true)
    ∧ (((unmaskedEntries (masked_softmax [0, 1] [true, false]) [true, false]).sum = 1
        ∧ ∀ i : ℕ, ([true, false] : List Bool)[i]? = some false →
            (masked_softmax [0, 1] [true, false])[i]? = some 0)
      ∧ (((unmaskedEntries (masked_log_softmax [0, 1] [true, false]) [true, false]).map
            expOpt).sum = 1
        ∧ ∀ i : ℕ, ([true, false] : List Bool)[i]? = some false →
            (masked_log_softmax [0, 1] [true, false])[i]? = some Option.none)) :=
  ⟨⟨rfl, rfl⟩, c1_masked_normalization [0, 1] [true, false] rfl 0 rfl⟩

theorem zipWith_replicate_false {α β : Type} (f : α → Bool → β) (z : β)
    (hf : ∀ s, f s false = z) (xs : List α) :
    List.zipWith f xs (List.replicate xs.length false) = List.replicate xs.length z := by
  induction xs with
  | nil => rfl
  | cons x xs ih =>
    rw [List.length_cons, List.replicate_succ, List.zipWith_cons_cons, hf, ih,
      List.replicate_succ]

/-- C8: on a score row whose mask has zero unmasked positions, the Masked
Normalization Primitive is a total function (so no floating-point exception and
no NaN propagation) returning the documented deterministic fallback: the
all-zero probability distribution (softmax), respectively the everywhere
negative-infinite (`none`, zero-probability) row (log-softmax). -/
theorem c8_degenerate_all_masked (scores : List ℝ) (n : ℕ) (hlen : scores.length = n) :
    masked_softmax scores (List.replicate n false) = List.replicate n 0
    ∧ masked_log_softmax scores (List.replicate n false) = List.replicate n Option.none := by
  subst hlen
  constructor
  · unfold masked_softmax
    exact zipWith_replicate_false _ (0:ℝ) (fun s => rfl) scores
  · unfold masked_log_softmax
    exact zipWith_replicate_false _ (Option.none (α := ℝ)) (fun s => rfl) scores

/-- Witness for C8 at scores = [5, 7], n = 2. -/
theorem c8_degenerate_all_masked_witness :
    ([5, 7] : List ℝ).length = 2
    ∧ (masked_softmax [5, 7] (List.replicate 2 false) = List.replicate 2 0
      ∧ masked_log_softmax [5, 7] (List.replicate 2 false) = List.replicate 2 Option.none) :=
  ⟨rfl, c8_degenerate_all_masked [5, 7] 2 rfl⟩

/-! ### Output masks, the CTC head and the character decoding step
(embedded from src/models/lipreader/better_model.py) -/

/-- Attention variants allowed by the decoding step (source line 11). -/
inductive AttentionType : Type
  | none
  | dot
  | general
  | oneLayerNN
  | concat
deriving DecidableEq

/-- Dot product of two feature vectors. -/
def dotProduct (xs ys : List ℝ) : ℝ :=
  (List.zipWith (fun a b => a * b) xs ys).sum

/-- Multiply a feature vector by a scalar weight. -/
def scaleVec (w : ℝ) (v : List ℝ) : List ℝ :=
  v.map (fun x => w * x)

/-- Pointwise sum of a list of feature vectors. -/
def vecSum : List (List ℝ) → List ℝ
  | [] => []
  | [v] => v
  | v :: vs => List.zipWith (fun a b => a + b) v (vecSum vs)

/-- Weighted sum of encoder timestep states — the attention context vector
computed by attn_weights.bmm(encoder_hidden_states) on source line 225. -/
def weightedSum (ws : List ℝ) (vs : List (List ℝ)) : List ℝ :=
  vecSum (List.zipWith scaleVec ws vs)

/-- Output mask of the encoder's CTC head (source lines 43–45): all-ones over
the blank-extended vocabulary of width vocab_size + 1, with the post-shift PAD
and BOS positions zeroed (index 0 stays reserved for the CTC blank). -/
def encoderOutputMask (vocabSize padIdx bosIdx : ℕ) : List Bool :=
  (List.range (vocabSize + 1)).map (fun i => !(i == padIdx + 1 || i == bosIdx + 1))

/-- Output mask of the decoding step (source lines 143–145): all-ones over the
vocabulary, with the PAD and BOS positions zeroed. -/
def decoderOutputMask (vocabSize padIdx bosIdx : ℕ) : List Bool :=
  (List.range vocabSize).map (fun i => !(i == padIdx || i == bosIdx))

/-- CTC head of VideoEncoder.forward (source lines 91–94), for one
batch-element/timestep row of projected logits: the log-softmax variant of the
Masked Normalization Primitive under the encoder's output mask. -/
noncomputable def encoderCTCLogProbs (vocabSize padIdx bosIdx : ℕ) (logits : List ℝ) :
    List (Option ℝ) :=
  masked_log_softmax logits (encoderOutputMask vocabSize padIdx bosIdx)

/-- Configuration and learned weights of CharDecodingStep (source lines
124–159).  The recurrent cell, the embedding table and the linear layers are
opaque learned functions, so they are abstract fields here; rnnStep maps
(previous state, embedded input) to (step hidden state, new state). -/
structure DecoderParams where
  vocabSize : ℕ
  padIdx : ℕ
  bosIdx : ℕ
  attentionType : AttentionType
  embedding : ℕ → List ℝ
  rnnStep : List (List ℝ) → List ℝ → List ℝ × List (List ℝ)
  attnProjOneLayerNN : List ℝ → ℝ
  attnProjGeneral : List ℝ → List ℝ
  attnProjLayer1 : List ℝ → List ℝ
  attnProjLayer2 : List ℝ → ℝ
  concatLayer : List ℝ → List ℝ
  outputProj : List ℝ → List ℝ

/-- Boolean validity mask over encoder timesteps (source line 176): position t
is valid iff t < encoder_lens for this batch element. -/
def encoderMask (enSeqLen len : ℕ) : List Bool :=
  (List.range enSeqLen).map (fun t => decide (t < len))

/-- One step of CharDecodingStep.forward (source lines 161–235) for one batch
element (every tensor operation in the source acts independently per batch row):
build the boolean validity mask over encoder timesteps (line 176), embed the
input token and advance the recurrent cell (lines 178–184), compute the chosen
attention variant's scores (lines 189–219), and — unless the variant is none —
normalize them with the masked softmax, form the context vector, and fuse it
with the step state (lines 221–228); finally project to vocabulary logits
(lines 230–232) and normalize with the masked log-softmax under the PAD/BOS
output mask (line 233).  Returns (output_log_probs, new recurrent state). -/
noncomputable def decoderForward (p : DecoderParams) (input : ℕ)
    (previousState : List (List ℝ)) (encoderLen : ℕ)
    (encoderHiddenStates : List (List ℝ)) : List (Option ℝ) × List (List ℝ) :=
  let enSeqLen := encoderHiddenStates.length
  let encMask := encoderMask enSeqLen encoderLen
  let embeddedChar := p.embedding input
  let step := p.rnnStep previousState embeddedChar
  let hiddenState := step.1
  let finalState := step.2
  let attnLogits :=
    match p.attentionType with
    | AttentionType.oneLayerNN =>
        encoderHiddenStates.map (fun e => p.attnProjOneLayerNN (e ++ hiddenState))
    | AttentionType.general =>
        encoderHiddenStates.map (fun e => dotProduct (p.attnProjGeneral hiddenState) e)
    | AttentionType.dot =>
        encoderHiddenStates.map (fun e => dotProduct hiddenState e)
    | AttentionType.concat =>
        encoderHiddenStates.map (fun e =>
          p.attnProjLayer2 ((p.attnProjLayer1 (e ++ hiddenState)).map Real.tanh))
    | AttentionType.none => []
  let newHiddenState :=
    if p.attentionType = AttentionType.none then
      hiddenState
    else
      let attnWeights := masked_softmax attnLogits encMask
      let context := weightedSum attnWeights encoderHiddenStates
      (p.concatLayer (context ++ hiddenState)).map Real.tanh
  let outputLogits := p.outputProj newHiddenState
  (masked_log_softmax outputLogits (decoderOutputMask p.vocabSize p.padIdx p.bosIdx),
    finalState)

/-! ### Helper lemmas for C2 and C7 -/

theorem masked_log_softmax_prob_zero (logits : List ℝ) (mask : List Bool) (i : ℕ)
    (hlen : mask.length = logits.length) (hi : mask[i]? = some false) :
    ((masked_log_softmax logits mask).map expOpt)[i]? = some 0 := by
  have h : (masked_log_softmax logits mask)[i]? = some Option.none :=
    zipWith_getElem?_of_mask_false _ (Option.none (α := ℝ)) (fun s => rfl) logits mask hlen i hi
  rw [List.getElem?_map, h]
  rfl

theorem encoderOutputMask_length (vocabSize padIdx bosIdx : ℕ) :
    (encoderOutputMask vocabSize padIdx bosIdx).length = vocabSize + 1 := by
  simp [encoderOutputMask]

theorem decoderOutputMask_length (vocabSize padIdx bosIdx : ℕ) :
    (decoderOutputMask vocabSize padIdx bosIdx).length = vocabSize := by
  simp [decoderOutputMask]

theorem encoderOutputMask_pad (vocabSize padIdx bosIdx : ℕ) (h : padIdx < vocabSize) :
    (encoderOutputMask vocabSize padIdx bosIdx)[padIdx + 1]? = some false := by
  unfold encoderOutputMask
  rw [List.getElem?_map, List.getElem?_range (by omega)]
  simp

theorem encoderOutputMask_bos (vocabSize padIdx bosIdx : ℕ) (h : bosIdx < vocabSize) :
    (encoderOutputMask vocabSize padIdx bosIdx)[bosIdx + 1]? = some false := by
  unfold encoderOutputMask
  rw [List.getElem?_map, List.getElem?_range (by omega)]
  simp

theorem decoderOutputMask_pad (vocabSize padIdx bosIdx : ℕ) (h : padIdx < vocabSize) :
    (decoderOutputMask vocabSize padIdx bosIdx)[padIdx]? = some false := by
  unfold decoderOutputMask
  rw [List.getElem?_map, List.getElem?_range h]
  simp

theorem decoderOutputMask_bos (vocabSize padIdx bosIdx : ℕ) (h : bosIdx < vocabSize) :
    (decoderOutputMask vocabSize padIdx bosIdx)[bosIdx]? = some false := by
  unfold decoderOutputMask
  rw [List.getElem?_map, List.getElem?_range h]
  simp

theorem decoderForward_fst_shape (p : DecoderParams) (input : ℕ) (prev : List (List ℝ))
    (len : ℕ) (ehs : List (List ℝ)) :
    ∃ v : List ℝ, (decoderForward p input prev len ehs).1
      = masked_log_softmax (p.outputProj v) (decoderOutputMask p.vocabSize p.padIdx p.bosIdx) :=
  ⟨_, rfl⟩

/-- C2: the character distributions assign zero probability to the reserved
symbols — the encoder's CTC log-probabilities at the post-shift PAD/BOS indices
(char2idx PAD + 1 and char2idx BOS + 1) and the decoder step's output
log-probabilities at the PAD/BOS indices denote probability exactly 0, for
every input (arbitrary logits row for the CTC head, arbitrary decoder call). -/
theorem c2_reserved_symbols_zero_probability
    (vocabSize padIdx bosIdx : ℕ) (hpad : padIdx < vocabSize) (hbos : bosIdx < vocabSize)
    (logits : List ℝ) (hlog : logits.length = vocabSize + 1)
    (p : DecoderParams) (hp : p.padIdx < p.vocabSize) (hb : p.bosIdx < p.vocabSize)
    (hproj : ∀ v, (p.outputProj v).length = p.vocabSize)
    (input : ℕ) (prev : List (List ℝ)) (len : ℕ) (ehs : List (List ℝ)) :
    (((encoderCTCLogProbs vocabSize padIdx bosIdx logits).map expOpt)[padIdx + 1]? = some 0
      ∧ ((encoderCTCLogProbs vocabSize padIdx bosIdx logits).map expOpt)[bosIdx + 1]? = some 0)
    ∧ (((decoderForward p input prev len ehs).1.map expOpt)[p.padIdx]? = some 0
      ∧ ((decoderForward p input prev len ehs).1.map expOpt)[p.bosIdx]? = some 0) := by
  have hmlen : (encoderOutputMask vocabSize padIdx bosIdx).length = logits.length := by
    rw [encoderOutputMask_length, hlog]
  obtain ⟨v, hv⟩ := decoderForward_fst_shape p input prev len ehs
  have hdlen : (decoderOutputMask p.vocabSize p.padIdx p.bosIdx).length
      = (p.outputProj v).length := by
    rw [decoderOutputMask_length, hproj]
  refine ⟨⟨?_, ?_⟩, ?_, ?_⟩
  · exact masked_log_softmax_prob_zero logits _ _ hmlen
      (encoderOutputMask_pad vocabSize padIdx bosIdx hpad)
  · exact masked_log_softmax_prob_zero logits _ _ hmlen
      (encoderOutputMask_bos vocabSize padIdx bosIdx hbos)
  · rw [hv]
    exact masked_log_softmax_prob_zero _ _ _ hdlen
      (decoderOutputMask_pad p.vocabSize p.padIdx p.bosIdx hp)
  · rw [hv]
    exact masked_log_softmax_prob_zero _ _ _ hdlen
      (decoderOutputMask_bos p.vocabSize p.padIdx p.bosIdx hb)

/-- A small concrete parameter set used to exercise the decoding step
(vocabulary of size 3 with PAD at index 0 and BOS at index 1). -/
noncomputable def testDecoderParams : DecoderParams where
  vocabSize := 3
  padIdx := 0
  bosIdx := 1
  attentionType := AttentionType.none
  embedding := fun _ => [1]
  rnnStep := fun s x => (x, s)
  attnProjOneLayerNN := fun v => v.sum
  attnProjGeneral := fun v => v
  attnProjLayer1 := fun v => v
  attnProjLayer2 := fun v => v.sum
  concatLayer := fun v => v
  outputProj := fun _ => [0, 0, 0]

/-- Witness for C2 at a CTC logits row of width 4 and a concrete decoder call. -/
theorem c2_reserved_symbols_zero_probability_witness :
    (0 < 3 ∧ 1 < 3 ∧ ([0, 0, 0, 0] : List ℝ).length = 3 + 1
      ∧ testDecoderParams.padIdx < testDecoderParams.vocabSize
      ∧ testDecoderParams.bosIdx < testDecoderParams.vocabSize
      ∧ ∀ v, (testDecoderParams.outputProj v).length = testDecoderParams.vocabSize)
    ∧ ((((encoderCTCLogProbs 3 0 1 [0, 0, 0, 0]).map expOpt)[0 + 1]? = some 0
        ∧ ((encoderCTCLogProbs 3 0 1 [0, 0, 0, 0]).map expOpt)[1 + 1]? = some 0)
      ∧ (((decoderForward testDecoderParams 2 [[0]] 1 [[1]]).1.map
            expOpt)[testDecoderParams.padIdx]? = some 0
        ∧ ((decoderForward testDecoderParams 2 [[0]] 1 [[1]]).1.map
            expOpt)[testDecoderParams.bosIdx]? = some 0)) :=
  ⟨⟨by decide, by decide, rfl, by decide, by decide, fun v => rfl⟩,
    c2_reserved_symbols_zero_probability 3 0 1 (by decide) (by decide) [0, 0, 0, 0] rfl
      testDecoderParams (by decide) (by decide) (fun v => rfl) 2 [[0]] 1 [[1]]⟩

/-- C7: with attention_type none, the decoding step's output log-probability
distribution and returned new state are independent of the contents of
encoder_hidden_states — two calls differing only in the values (not the shape)
of encoder_hidden_states return identical outputs. -/
theorem c7_attention_none_independent (p : DecoderParams)
    (hA : p.attentionType = AttentionType.none) (input : ℕ) (prev : List (List ℝ))
    (len : ℕ) (ehs ehs' : List (List ℝ)) (hshape : ehs.length = ehs'.length) :
    decoderForward p input prev len ehs = decoderForward p input prev len ehs' := by
  simp only [decoderForward, hA, if_pos]

/-- Witness for C7: two encoder-state tensors of equal shape but different
values give identical decoder outputs under attention_type none. -/
theorem c7_attention_none_independent_witness :
    (testDecoderParams.attentionType = AttentionType.none
      ∧ ([[1], [2]] : List (List ℝ)).length = ([[5], [9]] : List (List ℝ)).length)
    ∧ decoderForward testDecoderParams 2 [[0]] 2 [[1], [2]]
        = decoderForward testDecoderParams 2 [[0]] 2 [[5], [9]] :=
  ⟨⟨rfl, rfl⟩,
    c7_attention_none_independent testDecoderParams rfl 2 [[0]] 2 [[1], [2]] [[5], [9]] rfl⟩

/-! ### Sequence Reordering Utility (spec-modelled; allennlp sort_batch_by_length) -/

/-- Select rows of a batch by a list of indices (torch index_select along a
batch axis); an out-of-range index selects nothing. -/
def indexSelect {α : Type} (xs : List α) (idx : List ℕ) : List α :=
  idx.filterMap (fun i => xs[i]?)

/-- Modelled from the spec: the permutation (a list of original batch indices)
putting the batch into descending order of true length. -/
def sortPerm (lens : List ℕ) : List ℕ :=
  List.insertionSort (fun i j => lens.getD j 0 ≤ lens.getD i 0) (List.range lens.length)

/-- Modelled from the spec: the restoration permutation — entry k is the
position that original batch index k occupies in the sorted order, so that
index-selecting tensors computed on the sorted batch with it recovers original
batch order. -/
def restorationIndices (lens : List ℕ) : List ℕ :=
  (List.range lens.length).map (fun k => (sortPerm lens).indexOf k)

/-- Modelled from the spec: sort_batch_by_length (allennlp library code, not
part of the repository; called on source line 65) returns the batch permuted
into descending order of true length, the permuted lengths, the restoration
permutation, and the sorting permutation itself. -/
def sort_batch_by_length {α : Type} (tensor : List α) (lens : List ℕ) :
    List α × List ℕ × List ℕ × List ℕ :=
  (indexSelect tensor (sortPerm lens), indexSelect lens (sortPerm lens),
    restorationIndices lens, sortPerm lens)

/-! ### Helper lemmas for the reordering utility -/

theorem indexSelect_getElem? {α : Type} (xs : List α) (idx : List ℕ)
    (h : ∀ i ∈ idx, i < xs.length) (k : ℕ) :
    (indexSelect xs idx)[k]? = (idx[k]?).bind (fun i => xs[i]?) := by
  induction idx generalizing k with
  | nil => simp [indexSelect]
  | cons i is ih =>
    have hi : i < xs.length := h i (List.mem_cons_self i is)
    have ha : xs[i]? = some xs[i] := List.getElem?_eq_getElem hi
    have hrest : ∀ j ∈ is, j < xs.length := fun j hj => h j (List.mem_cons_of_mem i hj)
    cases k with
    | zero => simp [indexSelect, List.filterMap_cons, ha]
    | succ n =>
      simp only [indexSelect, List.filterMap_cons, ha, List.getElem?_cons_succ]
      simpa [indexSelect] using ih hrest n

theorem indexSelect_cons {α : Type} (xs : List α) (i : ℕ) (is : List ℕ)
    (hi : i < xs.length) :
    indexSelect xs (i :: is) = xs[i] :: indexSelect xs is := by
  simp [indexSelect, List.filterMap_cons, List.getElem?_eq_getElem hi]

theorem indexSelect_length {α : Type} (xs : List α) (idx : List ℕ)
    (h : ∀ i ∈ idx, i < xs.length) :
    (indexSelect xs idx).length = idx.length := by
  induction idx with
  | nil => rfl
  | cons i is ih =>
    rw [indexSelect_cons xs i is (h i (List.mem_cons_self i is)), List.length_cons,
      ih (fun j hj => h j (List.mem_cons_of_mem i hj)), List.length_cons]

theorem indexSelect_map {α β : Type} (f : α → β) (xs : List α) (idx : List ℕ) :
    indexSelect (xs.map f) idx = (indexSelect xs idx).map f := by
  unfold indexSelect
  have h : (fun i : ℕ => (xs.map f)[i]?) = fun i : ℕ => (xs[i]?).map f := by
    funext i
    exact List.getElem?_map f xs i
  rw [h, ← List.map_filterMap]

theorem sortPerm_perm (lens : List ℕ) : (sortPerm lens).Perm (List.range lens.length) :=
  List.perm_insertionSort _ _

theorem sortPerm_mem_lt (lens : List ℕ) : ∀ i ∈ sortPerm lens, i < lens.length := by
  intro i h
  have := (sortPerm_perm lens).mem_iff.mp h
  simpa using this

theorem sortPerm_length (lens : List ℕ) : (sortPerm lens).length = lens.length := by
  simpa using (sortPerm_perm lens).length_eq

theorem indexSelect_eq_map_getD (xs : List ℕ) (idx : List ℕ)
    (h : ∀ i ∈ idx, i < xs.length) :
    indexSelect xs idx = idx.map (fun i => xs.getD i 0) := by
  induction idx with
  | nil => rfl
  | cons i is ih =>
    have hi : i < xs.length := h i (List.mem_cons_self i is)
    simp only [indexSelect_cons xs i is hi, List.map_cons]
    rw [ih (fun j hj => h j (List.mem_cons_of_mem i hj))]
    congr 1
    exact (List.getD_eq_getElem xs 0 hi).symm

theorem indexSelect_restore {α : Type} (xs : List α) (lens : List ℕ)
    (hlen : xs.length = lens.length) :
    indexSelect (indexSelect xs (sortPerm lens)) (restorationIndices lens) = xs := by
  have hp : ∀ i ∈ sortPerm lens, i < xs.length := fun i hi =>
    hlen ▸ sortPerm_mem_lt lens i hi
  have hlen1 : (indexSelect xs (sortPerm lens)).length = lens.length := by
    rw [indexSelect_length xs _ hp, sortPerm_length]
  have hr : ∀ j ∈ restorationIndices lens, j < (indexSelect xs (sortPerm lens)).length := by
    intro j hj
    rw [hlen1]
    obtain ⟨k, hk, rfl⟩ := List.mem_map.mp hj
    have hkmem : k ∈ sortPerm lens := (sortPerm_perm lens).mem_iff.mpr hk
    calc List.indexOf k (sortPerm lens) < (sortPerm lens).length :=
        List.indexOf_lt_length.mpr hkmem
      _ = lens.length := sortPerm_length lens
  apply List.ext_getElem?
  intro k
  rw [indexSelect_getElem? _ _ hr k]
  by_cases hk : k < lens.length
  · have hrk : (restorationIndices lens)[k]? = some ((sortPerm lens).indexOf k) := by
      unfold restorationIndices
      rw [List.getElem?_map, List.getElem?_range hk]
      rfl
    rw [hrk]
    have hkmem : k ∈ sortPerm lens := (sortPerm_perm lens).mem_iff.mpr (List.mem_range.mpr hk)
    have hidx : (sortPerm lens)[(sortPerm lens).indexOf k]? = some k :=
      List.getElem?_indexOf hkmem
    simp only [Option.some_bind]
    rw [indexSelect_getElem? xs _ hp, hidx]
    rfl
  · have h1 : (restorationIndices lens)[k]? = none := by
      unfold restorationIndices
      rw [List.getElem?_map, List.getElem?_eq_none (by simpa using Nat.le_of_not_lt hk)]
      rfl
    have h2 : xs[k]? = none :=
      List.getElem?_eq_none (by omega)
    rw [h1, h2]
    rfl

theorem sorted_indexSelect_lens (lens : List ℕ) :
    List.Sorted (fun a b => b ≤ a) (indexSelect lens (sortPerm lens)) := by
  rw [indexSelect_eq_map_getD lens (sortPerm lens) (sortPerm_mem_lt lens)]
  haveI hTotal : IsTotal ℕ (fun i j => lens.getD j 0 ≤ lens.getD i 0) :=
    ⟨fun a b => le_total (lens.getD b 0) (lens.getD a 0)⟩
  haveI hTrans : IsTrans ℕ (fun i j => lens.getD j 0 ≤ lens.getD i 0) :=
    ⟨fun a b c hab hbc => le_trans hbc hab⟩
  have hs : List.Sorted (fun i j => lens.getD j 0 ≤ lens.getD i 0) (sortPerm lens) :=
    List.sorted_insertionSort _ _
  exact List.Pairwise.map _ (fun a b hab => hab) hs

/-- C3: sort_batch_by_length permutes the batch into descending order of true
length and returns a restoration permutation; index-selecting any tensor
computed elementwise on the sorted batch with the restoration permutation
recovers original batch order, and in particular restoring the sorted batch
itself is the identity round trip. -/
theorem c3_sort_and_restore {α β : Type} (batch : List α) (lens : List ℕ)
    (hlen : batch.length = lens.length) (f : α → β) :
    List.Sorted (fun a b => b ≤ a) (sort_batch_by_length batch lens).2.1
    ∧ indexSelect (((sort_batch_by_length batch lens).1).map f)
        (sort_batch_by_length batch lens).2.2.1 = batch.map f
    ∧ indexSelect (sort_batch_by_length batch lens).1
        (sort_batch_by_length batch lens).2.2.1 = batch := by
  refine ⟨sorted_indexSelect_lens lens, ?_, ?_⟩
  · show indexSelect ((indexSelect batch (sortPerm lens)).map f) (restorationIndices lens)
      = batch.map f
    rw [← indexSelect_map, indexSelect_restore (batch.map f) lens (by simpa using hlen)]
  · exact indexSelect_restore batch lens hlen

/-- Witness for C3 at batch = [10, 20], lens = [1, 2], f = (+ 100). -/
theorem c3_sort_and_restore_witness :
    ([10, 20] : List ℕ).length = ([1, 2] : List ℕ).length
    ∧ (List.Sorted (fun a b => b ≤ a) (sort_batch_by_length [10, 20] [1, 2]).2.1
      ∧ indexSelect (((sort_batch_by_length [10, 20] [1, 2]).1).map (fun x => x + 100))
          (sort_batch_by_length [10, 20] [1, 2]).2.2.1
          = ([10, 20] : List ℕ).map (fun x => x + 100)
      ∧ indexSelect (sort_batch_by_length [10, 20] [1, 2]).1
          (sort_batch_by_length [10, 20] [1, 2]).2.2.1 = [10, 20]) :=
  ⟨rfl, c3_sort_and_restore [10, 20] [1, 2] rfl (fun x => x + 100)⟩

/-! ### Video Encoder over an abstract variable-length recurrent cell -/

/-- Run an abstract recurrent cell over a list of inputs, producing the final
state and the per-timestep outputs. -/
def runSeq {σ ι ω : Type} (step : σ → ι → σ × ω) : σ → List ι → σ × List ω
  | s, [] => (s, [])
  | s, x :: xs =>
    let y := step s x
    let rest := runSeq step y.1 xs
    (rest.1, y.2 :: rest.2)

/-- Modelled from the spec: pack_padded_sequence, the recurrent cell and
pad_packed_sequence (torch library code, not part of the repository; source
lines 67–78) acting on a single sequence — the cell is run over exactly the
first len frames, and per-timestep output beyond the true length is the pad
value. Returns (per-timestep hidden states, final state). -/
def encodeSeq {σ ι ω : Type} (step : σ → ι → σ × ω) (init : σ) (padVal : ω)
    (seqLen len : ℕ) (frames : List ι) : List ω × σ :=
  let r := runSeq step init (frames.take len)
  (r.2 ++ List.replicate (seqLen - len) padVal, r.1)

/-- VideoEncoder.forward (source lines 53–96) with the CTC head disabled, over
an abstract recurrent cell: reorder the batch by descending true length with
the Sequence Reordering Utility, run the variable-length cell on each sorted
sequence, and restore original batch order on the per-sequence results
(per-timestep hidden states and final state alike). -/
def encoderForward {σ ι ω : Type} (step : σ → ι → σ × ω) (init : σ) (padVal : ω)
    (seqLen : ℕ) (frames : List (List ι)) (frameLens : List ℕ) :
    List (List ω × σ) :=
  let sorted := indexSelect (frames.zip frameLens) (sortPerm frameLens)
  let results := sorted.map (fun q => encodeSeq step init padVal seqLen q.2 q.1)
  indexSelect results (restorationIndices frameLens)

/-! ### Helper lemmas for the encoder -/

theorem runSeq_length {σ ι ω : Type} (step : σ → ι → σ × ω) (s : σ) (xs : List ι) :
    ((runSeq step s xs).2).length = xs.length := by
  induction xs generalizing s with
  | nil => rfl
  | cons x xs ih => simp [runSeq, ih]

theorem zip_getElem? {α β : Type} (as : List α) (bs : List β) (k : ℕ) :
    (as.zip bs)[k]? = (as[k]?).bind (fun a => (bs[k]?).map (fun b => (a, b))) := by
  induction as generalizing bs k with
  | nil => simp
  | cons a as ih =>
    cases bs with
    | nil => simp
    | cons b bs =>
      cases k with
      | zero => simp [List.zip_cons_cons]
      | succ n => simpa [List.zip_cons_cons] using ih bs n

theorem getD_replicate_self {α : Type} (m j : ℕ) (x : α) :
    (List.replicate m x).getD j x = x := by
  rcases lt_or_ge j m with h | h
  · rw [List.getD_eq_getElem _ _ (by simpa using h), List.getElem_replicate]
  · rw [List.getD_eq_getElem?_getD, List.getElem?_eq_none (by simpa using h)]
    rfl

theorem encodeSeq_take_congr {σ ι ω : Type} (step : σ → ι → σ × ω) (init : σ) (padVal : ω)
    (seqLen len : ℕ) (fr fr' : List ι) (h : fr.take len = fr'.take len) :
    encodeSeq step init padVal seqLen len fr = encodeSeq step init padVal seqLen len fr' := by
  unfold encodeSeq
  rw [h]

theorem encoderForward_eq_map {σ ι ω : Type} (step : σ → ι → σ × ω) (init : σ) (padVal : ω)
    (seqLen : ℕ) (frames : List (List ι)) (frameLens : List ℕ)
    (hn : frames.length = frameLens.length) :
    encoderForward step init padVal seqLen frames frameLens
      = (frames.zip frameLens).map (fun q => encodeSeq step init padVal seqLen q.2 q.1) := by
  show indexSelect
      ((indexSelect (frames.zip frameLens) (sortPerm frameLens)).map
        (fun q => encodeSeq step init padVal seqLen q.2 q.1))
      (restorationIndices frameLens)
    = (frames.zip frameLens).map (fun q => encodeSeq step init padVal seqLen q.2 q.1)
  rw [← indexSelect_map]
  exact indexSelect_restore _ frameLens (by simp [hn])

/-- C5: per batch element, encoder.forward does not depend on frame values at
timesteps at or beyond the true length — varying the padding leaves the whole
returned result (valid-prefix hidden states and final state) unchanged — and
the per-timestep hidden states at positions beyond the true length equal the
pad value. -/
theorem c5_padding_independence {σ ι ω : Type} (step : σ → ι → σ × ω) (init : σ) (padVal : ω)
    (seqLen : ℕ) (frames frames' : List (List ι)) (frameLens : List ℕ)
    (hn : frames.length = frameLens.length) (hn' : frames'.length = frameLens.length)
    (hagree : ∀ k : ℕ, k < frameLens.length →
      (frames.getD k []).take (frameLens.getD k 0)
        = (frames'.getD k []).take (frameLens.getD k 0)) :
    encoderForward step init padVal seqLen frames frameLens
      = encoderForward step init padVal seqLen frames' frameLens
    ∧ ∀ k : ℕ, k < frameLens.length →
        ∀ t : ℕ, frameLens.getD k 0 ≤ t →
          ((encoderForward step init padVal seqLen frames frameLens).getD k
              ([], init)).1.getD t padVal = padVal := by
  have heq := encoderForward_eq_map step init padVal seqLen frames frameLens hn
  have heq' := encoderForward_eq_map step init padVal seqLen frames' frameLens hn'
  constructor
  · rw [heq, heq']
    apply List.ext_getElem?
    intro k
    rw [List.getElem?_map, List.getElem?_map, zip_getElem?, zip_getElem?]
    by_cases hk : k < frameLens.length
    · have hf : frames[k]? = some (frames.getD k []) := by
        rw [List.getD_eq_getElem frames [] (by omega)]
        exact List.getElem?_eq_getElem (by omega)
      have hf' : frames'[k]? = some (frames'.getD k []) := by
        rw [List.getD_eq_getElem frames' [] (by omega)]
        exact List.getElem?_eq_getElem (by omega)
      have hl : frameLens[k]? = some (frameLens.getD k 0) := by
        rw [List.getD_eq_getElem frameLens 0 hk]
        exact List.getElem?_eq_getElem hk
      rw [hf, hf', hl]
      simp only [Option.some_bind, Option.map_some']
      have hcong := encodeSeq_take_congr step init padVal seqLen (frameLens.getD k 0)
        (frames.getD k []) (frames'.getD k []) (hagree k hk)
      simp only [hcong]
    · have hf : frames[k]? = none := List.getElem?_eq_none (by omega)
      have hf' : frames'[k]? = none := List.getElem?_eq_none (by omega)
      rw [hf, hf']
  · intro k hk t ht
    rw [heq]
    have hf : frames[k]? = some (frames.getD k []) := by
      rw [List.getD_eq_getElem frames [] (by omega)]
      exact List.getElem?_eq_getElem (by omega)
    have hl : frameLens[k]? = some (frameLens.getD k 0) := by
      rw [List.getD_eq_getElem frameLens 0 hk]
      exact List.getElem?_eq_getElem hk
    have hzk : (frames.zip frameLens)[k]? = some (frames.getD k [], frameLens.getD k 0) := by
      rw [zip_getElem?, hf, hl]
      rfl
    have hres : (List.map (fun q => encodeSeq step init padVal seqLen q.2 q.1)
          (frames.zip frameLens)).getD k ([], init)
        = encodeSeq step init padVal seqLen (frameLens.getD k 0) (frames.getD k []) := by
      rw [List.getD_eq_getElem?_getD, List.getElem?_map, hzk]
      rfl
    rw [hres]
    have hlen2 : ((runSeq step init ((frames.getD k []).take (frameLens.getD k 0))).2).length
        ≤ t := by
      rw [runSeq_length]
      calc ((frames.getD k []).take (frameLens.getD k 0)).length ≤ frameLens.getD k 0 := by
            simp [List.length_take]
        _ ≤ t := ht
    show ((runSeq step init ((frames.getD k []).take (frameLens.getD k 0))).2
        ++ List.replicate (seqLen - frameLens.getD k 0) padVal).getD t padVal = padVal
    rw [List.getD_eq_getElem?_getD, List.getElem?_append_right hlen2,
      ← List.getD_eq_getElem?_getD]
    exact getD_replicate_self _ _ _

/-- Witness for C5 with an additive cell on two sequences of lengths 2 and 1
padded to 3, whose padding values differ between frames and frames'. -/
theorem c5_padding_independence_witness :
    (([[1, 2, 9], [3, 8, 7]] : List (List ℕ)).length = ([2, 1] : List ℕ).length
      ∧ ([[1, 2, 0], [3, 0, 0]] : List (List ℕ)).length = ([2, 1] : List ℕ).length
      ∧ ∀ k : ℕ, k < ([2, 1] : List ℕ).length →
          (([[1, 2, 9], [3, 8, 7]] : List (List ℕ)).getD k []).take (([2, 1] : List ℕ).getD k 0)
            = (([[1, 2, 0], [3, 0, 0]] : List (List ℕ)).getD k []).take
                (([2, 1] : List ℕ).getD k 0))
    ∧ (encoderForward (fun s x => (s + x, s + x)) 0 0 3 [[1, 2, 9], [3, 8, 7]] [2, 1]
        = encoderForward (fun s x => (s + x, s + x)) 0 0 3 [[1, 2, 0], [3, 0, 0]] [2, 1]
      ∧ ∀ k : ℕ, k < ([2, 1] : List ℕ).length →
          ∀ t : ℕ, ([2, 1] : List ℕ).getD k 0 ≤ t →
            ((encoderForward (fun s x => (s + x, s + x)) 0 0 3
                [[1, 2, 9], [3, 8, 7]] [2, 1]).getD k ([], 0)).1.getD t 0 = 0) :=
  ⟨⟨rfl, rfl, by decide⟩,
    c5_padding_independence (fun s x => (s + x, s + x)) 0 0 3
      [[1, 2, 9], [3, 8, 7]] [[1, 2, 0], [3, 0, 0]] [2, 1] rfl rfl (by decide)⟩

/-! ### Bidirectional final-state recombination (_cat_directions, source
lines 98–112) -/

/-- Elements of a list at even positions 0, 2, 4, … — the forward-direction
slots s[0::2] of the layer-direction axis. -/
def everyOtherEven {α : Type} : List α → List α
  | [] => []
  | [x] => [x]
  | x :: _ :: xs => x :: everyOtherEven xs

/-- Elements of a list at odd positions 1, 3, 5, … — the backward-direction
slots s[1::2]. -/
def everyOtherOdd {α : Type} : List α → List α
  | [] => []
  | _ :: xs => everyOtherEven xs

/-- The _cat helper of VideoEncoder._cat_directions (source lines 104–105):
torch.cat([s[0::2], s[1::2]], dim=2) — per layer, concatenate the
forward-direction and the backward-direction state along the feature axis,
forward first. -/
def catDirectionsState (s : List (List (List ℝ))) : List (List (List ℝ)) :=
  List.zipWith (fun u v => List.zipWith (fun a b => a ++ b) u v)
    (everyOtherEven s) (everyOtherOdd s)

/-- VideoEncoder._cat_directions on an LSTM state pair (source lines 107–108):
the recombination is applied component-wise to both members of the pair. -/
def catDirectionsLSTM (s : List (List (List ℝ)) × List (List (List ℝ))) :
    List (List (List ℝ)) × List (List (List ℝ)) :=
  (catDirectionsState s.1, catDirectionsState s.2)

/-! ### Helper lemmas for the recombination -/

theorem everyOtherEven_getElem? {α : Type} (s : List α) (l : ℕ) :
    (everyOtherEven s)[l]? = s[2 * l]? := by
  induction s using everyOtherEven.induct generalizing l with
  | case1 =>
    simp [everyOtherEven]
  | case2 x =>
    cases l with
    | zero => simp [everyOtherEven]
    | succ n =>
      rw [List.getElem?_eq_none (by simp [everyOtherEven]),
        List.getElem?_eq_none (by simp; omega)]
  | case3 x y xs ih =>
    cases l with
    | zero => simp [everyOtherEven]
    | succ n =>
      show (x :: everyOtherEven xs)[n + 1]? = (x :: y :: xs)[2 * (n + 1)]?
      rw [List.getElem?_cons_succ, ih n,
        show 2 * (n + 1) = 2 * n + 1 + 1 by ring, List.getElem?_cons_succ,
        List.getElem?_cons_succ]

theorem everyOtherOdd_getElem? {α : Type} (s : List α) (l : ℕ) :
    (everyOtherOdd s)[l]? = s[2 * l + 1]? := by
  cases s with
  | nil => simp [everyOtherOdd]
  | cons x xs =>
    show (everyOtherEven xs)[l]? = (x :: xs)[2 * l + 1]?
    rw [everyOtherEven_getElem?, List.getElem?_cons_succ]

theorem everyOtherEven_length {α : Type} (s : List α) :
    (everyOtherEven s).length = (s.length + 1) / 2 := by
  induction s using everyOtherEven.induct with
  | case1 => simp [everyOtherEven]
  | case2 x => simp [everyOtherEven]
  | case3 x y xs ih =>
    show (x :: everyOtherEven xs).length = ((x :: y :: xs).length + 1) / 2
    simp only [List.length_cons, ih]
    omega

theorem everyOtherOdd_length {α : Type} (s : List α) :
    (everyOtherOdd s).length = s.length / 2 := by
  cases s with
  | nil => simp [everyOtherOdd]
  | cons x xs =>
    show (everyOtherEven xs).length = (x :: xs).length / 2
    rw [everyOtherEven_length]
    simp

theorem mem_of_getElem_some {α : Type} {l : List α} {i : ℕ} {a : α}
    (h : l[i]? = some a) : a ∈ l := by
  obtain ⟨hlt, rfl⟩ := List.getElem?_eq_some.mp h
  exact List.getElem_mem hlt

theorem mem_zipWith_decomp {α β γ : Type} (g : α → β → γ) (as : List α) (bs : List β)
    (c : γ) (hc : c ∈ List.zipWith g as bs) :
    ∃ a b, a ∈ as ∧ b ∈ bs ∧ c = g a b := by
  induction as generalizing bs with
  | nil => simp at hc
  | cons a as ih =>
    cases bs with
    | nil => simp at hc
    | cons b bs =>
      rw [List.zipWith_cons_cons] at hc
      rcases List.mem_cons.mp hc with h | h
      · exact ⟨a, b, List.mem_cons_self a as, List.mem_cons_self b bs, h⟩
      · obtain ⟨a', b', ha', hb', rfl⟩ := ih bs h
        exact ⟨a', b', List.mem_cons_of_mem a ha', List.mem_cons_of_mem b hb', rfl⟩

/-- C4: for a bidirectional final state of 2L layer-direction slots, each of
shape batch B by hidden H, the recombination yields L layers; layer l is the
pairwise feature-axis concatenation of slot 2l (forward) then slot 2l+1
(backward), with batch size B and feature width 2H; for the LSTM cell it is
applied component-wise to both members of the state pair. -/
theorem c4_cat_directions (s : List (List (List ℝ))) (L B H : ℕ)
    (hs : s.length = 2 * L)
    (hB : ∀ layer ∈ s, layer.length = B)
    (hH : ∀ layer ∈ s, ∀ row ∈ layer, row.length = H) :
    (catDirectionsState s).length = L
    ∧ (∀ (l : ℕ) (fwd bwd : List (List ℝ)),
        s[2 * l]? = some fwd → s[2 * l + 1]? = some bwd →
          (catDirectionsState s)[l]? = some (List.zipWith (fun a b => a ++ b) fwd bwd)
          ∧ (List.zipWith (fun a b => a ++ b) fwd bwd).length = B
          ∧ ∀ row ∈ List.zipWith (fun a b => a ++ b) fwd bwd, row.length = 2 * H)
    ∧ (∀ t : List (List (List ℝ)) × List (List (List ℝ)),
        catDirectionsLSTM t = (catDirectionsState t.1, catDirectionsState t.2)) := by
  refine ⟨?_, ?_, fun t => rfl⟩
  · unfold catDirectionsState
    rw [List.length_zipWith, everyOtherEven_length, everyOtherOdd_length, hs]
    omega
  · intro l fwd bwd hf hb
    have hfm : fwd ∈ s := mem_of_getElem_some hf
    have hbm : bwd ∈ s := mem_of_getElem_some hb
    refine ⟨?_, ?_, ?_⟩
    · unfold catDirectionsState
      exact zipWith_getElem?_of_both _ _ _ l fwd bwd
        ((everyOtherEven_getElem? s l).trans hf) ((everyOtherOdd_getElem? s l).trans hb)
    · rw [List.length_zipWith, hB fwd hfm, hB bwd hbm]
      omega
    · intro row hrow
      obtain ⟨a, b, ha, hbmem, rfl⟩ := mem_zipWith_decomp _ fwd bwd row hrow
      rw [List.length_append, hH fwd hfm a ha, hH bwd hbm b hbmem]
      omega

/-- Witness for C4 at the 1-layer bidirectional state s = [[[1]], [[2]]]
(L = B = H = 1). -/
theorem c4_cat_directions_witness :
    (([[[1]], [[2]]] : List (List (List ℝ))).length = 2 * 1
      ∧ (∀ layer ∈ ([[[1]], [[2]]] : List (List (List ℝ))), layer.length = 1)
      ∧ (∀ layer ∈ ([[[1]], [[2]]] : List (List (List ℝ))),
          ∀ row ∈ layer, row.length = 1))
    ∧ ((catDirectionsState [[[1]], [[2]]]).length = 1
      ∧ (∀ (l : ℕ) (fwd bwd : List (List ℝ)),
          ([[[1]], [[2]]] : List (List (List ℝ)))[2 * l]? = some fwd →
          ([[[1]], [[2]]] : List (List (List ℝ)))[2 * l + 1]? = some bwd →
            (catDirectionsState [[[1]], [[2]]])[l]?
              = some (List.zipWith (fun a b => a ++ b) fwd bwd)
            ∧ (List.zipWith (fun a b => a ++ b) fwd bwd).length = 1
            ∧ ∀ row ∈ List.zipWith (fun a b => a ++ b) fwd bwd, row.length = 2 * 1)
      ∧ (∀ t : List (List (List ℝ)) × List (List (List ℝ)),
          catDirectionsLSTM t = (catDirectionsState t.1, catDirectionsState t.2))) :=
  ⟨⟨rfl, by simp [List.forall_mem_cons], by simp [List.forall_mem_cons]⟩,
    c4_cat_directions [[[1]], [[2]]] 1 1 1 rfl
      (by simp [List.forall_mem_cons])
      (by simp [List.forall_mem_cons])⟩

/-! ### save_best_model (source lines 114–122 and 237–245) -/

/-- Mutable per-component checkpoint state: the best validation error seen so
far and the list of checkpoint paths written. -/
structure SaveState where
  bestError : ℚ
  checkpoints : List String
deriving DecidableEq

/-- Initial component state: best_error starts at 1 (source lines 35 and 159)
with no checkpoint written. -/
def initSaveState : SaveState := ⟨1, []⟩

/-- Outcome of one save_best_model call: a checkpoint write, a no-op, or a
propagated filesystem exception. -/
inductive SaveResult : Type
  | wrote
  | noop
  | raised
deriving DecidableEq

/-- Modelled from the Python os.path semantics the source relies on (library
code, not part of the repository), for relative paths: the prefix of the path
before its final slash, empty when the path contains no slash. -/
def os_path_dirname (p : String) : String :=
  let cs := p.toList
  if cs.contains '/' then
    String.mk (((cs.reverse.dropWhile (fun c => c != '/')).drop 1).reverse)
  else ""

/-- save_best_model (source lines 114–122; lines 237–245 are identical): when
error improves strictly on best_error, the source first sets best_error to the
new error, then ensures the destination directory exists and persists the
parameters.  The filesystem calls are modelled from the os/torch semantics the
source relies on: os.path.exists of the empty string is false and os.makedirs
of the empty string raises, so a path with no directory component raises after
best_error was already lowered and before any checkpoint is written; for any
other path the directory is created (or already exists) and the write
succeeds.  On a tie or a larger error the call changes nothing. -/
def save_best_model (s : SaveState) (error : ℚ) (filePath : String) :
    SaveState × SaveResult :=
  if error < s.bestError then
    let s1 : SaveState := ⟨error, s.checkpoints⟩
    let folder := os_path_dirname filePath
    if folder = "" then (s1, SaveResult.raised)
    else (⟨error, s.checkpoints ++ [filePath]⟩, SaveResult.wrote)
  else (s, SaveResult.noop)

/-- C6: best_error is initialized to 1 and is non-increasing across calls to
save_best_model; a call (on a path whose directory component is non-empty, so
the modelled filesystem actions succeed) updates best_error to error and writes
a checkpoint exactly when error < best_error strictly, and on a tie or a larger
error performs no write and leaves the whole component state unchanged. -/
theorem c6_save_best_model_monotone (s : SaveState) (e : ℚ) (path : String)
    (hpath : os_path_dirname path ≠ "") :
    initSaveState.bestError = 1
    ∧ (save_best_model s e path).1.bestError ≤ s.bestError
    ∧ (e < s.bestError →
        save_best_model s e path
          = (⟨e, s.checkpoints ++ [path]⟩, SaveResult.wrote))
    ∧ (¬ e < s.bestError → save_best_model s e path = (s, SaveResult.noop)) := by
  refine ⟨rfl, ?_, ?_, ?_⟩
  · by_cases h : e < s.bestError
    · have hw : save_best_model s e path
          = (⟨e, s.checkpoints ++ [path]⟩, SaveResult.wrote) := by
        simp [save_best_model, h, hpath]
      rw [hw]
      exact le_of_lt h
    · have hn : save_best_model s e path = (s, SaveResult.noop) := by
        simp [save_best_model, h]
      rw [hn]
  · intro h
    simp [save_best_model, h, hpath]
  · intro h
    simp [save_best_model, h]

/-- Witness for C6 at the initial state, error 0 and path ckpt/model.pt. -/
theorem c6_save_best_model_monotone_witness :
    os_path_dirname "ckpt/model.pt" ≠ ""
    ∧ (initSaveState.bestError = 1
      ∧ (save_best_model initSaveState 0 "ckpt/model.pt").1.bestError
          ≤ initSaveState.bestError
      ∧ ((0 : ℚ) < initSaveState.bestError →
          save_best_model initSaveState 0 "ckpt/model.pt"
            = (⟨0, initSaveState.checkpoints ++ ["ckpt/model.pt"]⟩, SaveResult.wrote))
      ∧ (¬ (0 : ℚ) < initSaveState.bestError →
          save_best_model initSaveState 0 "ckpt/model.pt"
            = (initSaveState, SaveResult.noop))) :=
  ⟨by decide, c6_save_best_model_monotone initSaveState 0 "ckpt/model.pt" (by decide)⟩

/-- C10: when error < best_error and the path has no directory component (so
the modelled os.makedirs of the empty dirname raises), the call propagates the
exception with best_error already lowered and no checkpoint written — the
best_error update and the checkpoint write are not atomic. -/
theorem c10_save_best_model_not_atomic (s : SaveState) (e : ℚ) (path : String)
    (himp : e < s.bestError) (hpath : os_path_dirname path = "") :
    save_best_model s e path = (⟨e, s.checkpoints⟩, SaveResult.raised) := by
  simp [save_best_model, himp, hpath]

/-- Witness for C10 at the bare filename model.pt. -/
theorem c10_save_best_model_not_atomic_witness :
    ((0 : ℚ) < initSaveState.bestError ∧ os_path_dirname "model.pt" = "")
    ∧ save_best_model initSaveState 0 "model.pt"
        = (⟨0, initSaveState.checkpoints⟩, SaveResult.raised) :=
  ⟨⟨by decide, by decide⟩,
    c10_save_best_model_not_atomic initSaveState 0 "model.pt" (by decide) (by decide)⟩

/-! ### Oversized length values (C9) -/

/-- Modelled from the spec: shape/contract violations are fatal at call time —
the packing primitive called by VideoEncoder.forward (torch library code,
source lines 68–70) rejects length values exceeding the padded sequence
dimension, so the encoder raises instead of silently truncating. -/
def encoderForwardChecked {σ ι ω : Type} (step : σ → ι → σ × ω) (init : σ) (padVal : ω)
    (seqLen : ℕ) (frames : List (List ι)) (frameLens : List ℕ) :
    Except String (List (List ω × σ)) :=
  if frameLens.all (fun l => l ≤ seqLen) then
    Except.ok (encoderForward step init padVal seqLen frames frameLens)
  else Except.error "length exceeds padded sequence dimension"

theorem encoderMask_clamp (n len : ℕ) (h : n ≤ len) :
    encoderMask n len = encoderMask n n := by
  unfold encoderMask
  apply List.map_congr_left
  intro a ha
  have ha' : a < n := List.mem_range.mp ha
  simp [ha', lt_of_lt_of_le ha' h]

theorem decoderForward_oversized_len (p : DecoderParams) (input : ℕ)
    (prev : List (List ℝ)) (len : ℕ) (ehs : List (List ℝ)) (h : ehs.length ≤ len) :
    decoderForward p input prev len ehs = decoderForward p input prev ehs.length ehs := by
  simp only [decoderForward]
  rw [encoderMask_clamp ehs.length len h]

/-- The concrete decoder parameter set with dot attention, so that the decoder
genuinely reads the encoder hidden states through the oversized mask. -/
noncomputable def testDecoderParamsDot : DecoderParams :=
  { testDecoderParams with attentionType := AttentionType.dot }

/-- C9 counterexample: with en_seq_len = 3 and encoder_lens = 5 exceeding the
padded sequence dimension, CharDecodingStep.forward does not fail: the
validity mask (source line 176) simply marks all three positions valid and the
call returns exactly the value of the in-range call with encoder_lens = 3 —
silent acceptance, not a loud error. -/
theorem c9_counterexample_decoder_accepts_oversized :
    encoderMask 3 5 = [true, true, true]
    ∧ decoderForward testDecoderParamsDot 2 [[0]] 5 [[1], [2], [3]]
        = decoderForward testDecoderParamsDot 2 [[0]] 3 [[1], [2], [3]] :=
  ⟨by decide,
    decoderForward_oversized_len testDecoderParamsDot 2 [[0]] 5 [[1], [2], [3]] (by decide)⟩

/-- C9 (amended): a length argument exceeding the padded sequence dimension is
fatal for VideoEncoder.forward — the packing primitive raises — but not for
CharDecodingStep.forward: an oversized encoder_lens entry marks every encoder
position valid and the call proceeds, identically to encoder_lens =
en_seq_len. -/
theorem c9_amended_oversized_lengths {σ ι ω : Type} (step : σ → ι → σ × ω) (init : σ)
    (padVal : ω) (seqLen : ℕ) (frames : List (List ι)) (frameLens : List ℕ)
    (hover : ¬ frameLens.all (fun l => l ≤ seqLen))
    (p : DecoderParams) (input : ℕ) (prev : List (List ℝ)) (len : ℕ)
    (ehs : List (List ℝ)) (hlen : ehs.length ≤ len) :
    encoderForwardChecked step init padVal seqLen frames frameLens
      = Except.error "length exceeds padded sequence dimension"
    ∧ decoderForward p input prev len ehs = decoderForward p input prev ehs.length ehs := by
  refine ⟨?_, decoderForward_oversized_len p input prev len ehs hlen⟩
  simp [encoderForwardChecked, hover]

/-- Witness for the amended C9 at frame_lens = [4] against seq_len 3, and a
decoder call with encoder_lens = 2 against one encoder timestep. -/
theorem c9_amended_oversized_lengths_witness :
    (¬ ([4] : List ℕ).all (fun l => l ≤ 3) ∧ ([[1]] : List (List ℝ)).length ≤ 2)
    ∧ (encoderForwardChecked (fun s x => (s + x, s + x)) 0 0 3 [[1, 2, 3]] [4]
        = Except.error "length exceeds padded sequence dimension"
      ∧ decoderForward testDecoderParamsDot 2 [[0]] 2 [[1]]
          = decoderForward testDecoderParamsDot 2 [[0]] ([[1]] : List (List ℝ)).length [[1]]) :=
  ⟨⟨by decide, by decide⟩,
    c9_amended_oversized_lengths (fun s x => (s + x, s + x)) 0 0 3 [[1, 2, 3]] [4]
      (by decide) testDecoderParamsDot 2 [[0]] 2 [[1]] (by decide)⟩

end LipReading
